import Mathlib

/-!
Verification of the VRPTW constraint-satisfaction solver
(`src/VRPTW3/main.py`, class `CSP_VRPTW`).

The Python solver is shallowly embedded as follows.

* A problem instance (`Inst`) carries the customer records as index
  functions (index 0 is the depot), the vehicle capacity, the fleet size,
  and the travel-time matrix `dist`.  In the Python code the matrix is
  computed once by `_create_distance_matrix` from the customers'
  coordinates; the solver only ever reads the matrix, so the solver
  embedding is parametrized by a matrix over an arbitrary linearly
  ordered ring `Q` (the source's floats approximate the reals, and `Real`
  is an admissible `Q`), and the Euclidean matrix itself is embedded
  separately over `Real` (since `math.sqrt` produces irrational values)
  as `create_distance_matrix`.  The concrete instances below place all
  locations on the x-axis so their Euclidean matrix is integer-valued,
  take `Q = Int` so runs can be evaluated by `decide`, and bridging
  lemmas show each integer matrix equals the Euclidean matrix of its
  coordinates.
* The mutable solver state (`self.assignments`, `self.domains`,
  `self.routes`) is an explicit record `SState`.  `assignments` is the
  insertion-ordered association list of a Python dict, `domains` is a
  total function on variable indices (the dict's key set is fixed), and
  `routes` is the list of routes indexed by vehicle (the dict's keys are
  always `0..k-1`).
* Python numbers: times and distances are floats in the source,
  modelled by `Q`; demands and the capacity are ints, modelled as `Int`.
* `_backtrack` mutates `self.routes`/`self.domains` across recursive
  calls.  The embedding threads the state explicitly: `backtrack` returns
  the optional solution together with the final domain store, because the
  source never restores `self.domains` after a failed recursive call
  (only `_forward_checking` restores its own snapshot on its own failure).
  The `for value in sorted(...)` loop body of `_backtrack` is factored
  into `tryValuesAux`, which receives the recursive call as `next`;
  recursion is structural on an explicit fuel, and
  `bfuel I = number of variables + 1` bounds the recursion depth of any
  run (each recursive call grows `assignments` by exactly one entry).
-/

namespace VRPTW3

/-- A problem instance: the data `CSP_VRPTW.__init__` stores on `self`.
`demand`, `ready`, `due`, `service` are the fields of
`self.customers[i]`; `dist` is `self.distance_matrix`;
`capacity` is `self.vehicle_capacity`; `numVehicles` is
`self.num_vehicles`; `numCustomers` is `self.num_customers` (customer 0
is the depot). -/
structure Inst (Q : Type) where
  numCustomers : Nat
  numVehicles : Nat
  capacity : Int
  demand : Nat → Int
  ready : Nat → Q
  due : Nat → Q
  service : Nat → Q
  dist : Nat → Nat → Q

/-- The mutable solver state: `self.assignments` (association list in
insertion order), `self.domains` (total function on indices; the Python
dict has the fixed key set `self.variables`), `self.routes` (list indexed
by vehicle; the Python dict has keys `0..vehicle_limit-1`). -/
structure SState where
  assignments : List (Nat × Nat)
  domains : Nat → List Nat
  routes : List (List Nat)

section Solver

variable {Q : Type} [LinearOrderedRing Q]

/-- `self.variables = list(range(1, self.num_customers))`. -/
def csvars (I : Inst Q) : List Nat := List.range' 1 (I.numCustomers - 1)

/-- The loop of `_validate_time_windows`: `prev` is the previous stop
(depot `0` for the first customer), `clock` the running time.  Each step
adds the travel time, waits for free until `ready_time`, rejects if the
clock exceeds `due_time`, and otherwise adds `service_time`. -/
def validateFrom (I : Inst Q) : Nat → Q → List Nat → Bool
  | _, _, [] => true
  | prev, clock, c :: rest =>
    let t := max (clock + I.dist prev c) (I.ready c)
    if I.due c < t then false
    else validateFrom I c (t + I.service c) rest

/-- `_validate_time_windows(route)`: simulate the route starting from the
depot at time 0. -/
def validate_time_windows (I : Inst Q) (route : List Nat) : Bool :=
  validateFrom I 0 0 route

/-- `sum(self.customers[c]["demand"] for c in route)`. -/
def routeDemand (I : Inst Q) (route : List Nat) : Int :=
  (route.map I.demand).sum

/-- `is_consistent(variable, value, route)`: the three checks of the
constraint checker, in source order — global uniqueness across
`self.routes` (`routes` here), then capacity of `route + [variable]`,
then time windows of `route + [variable]`. -/
def is_consistent (I : Inst Q) (routes : List (List Nat)) (x : Nat)
    (route : List Nat) : Bool :=
  if routes.any (fun r => decide (x ∈ r)) then false
  else if I.capacity < routeDemand I route + I.demand x then false
  else validate_time_windows I (route ++ [x])

/-- Pointwise update of a domain store (assignment to one dict key). -/
def updD (d : Nat → List Nat) (n : Nat) (nd : List Nat) : Nat → List Nat :=
  fun m => if m = n then nd else d m

/-- `n in self.assignments` (dict key membership). -/
def assignedIn (asg : List (Nat × Nat)) (n : Nat) : Bool :=
  asg.any (fun p => p.1 == n)

/-- The loop of `_forward_checking`: walk `self.variables`, and for each
still-unassigned variable replace its domain by the values that remain
consistent with the current routes.  On an empty recomputed domain,
return failure together with `orig` — the `deepcopy` snapshot
`original_domains` taken on entry, which the source restores with
`self.domains = original_domains`. -/
def fcGo (I : Inst Q) (routes : List (List Nat)) (asg : List (Nat × Nat))
    (orig : Nat → List Nat) :
    List Nat → (Nat → List Nat) → Bool × (Nat → List Nat)
  | [], d => (true, d)
  | n :: rest, d =>
    if assignedIn asg n then fcGo I routes asg orig rest d
    else
      let nd := (d n).filter (fun v => is_consistent I routes n (routes.getD v []))
      if nd.isEmpty then (false, orig)
      else fcGo I routes asg orig rest (updD d n nd)

/-- `_forward_checking`: its `variable`/`value` parameters are unused in
the source body (the committed variable is skipped because it is already
in `self.assignments`), so they are omitted here. -/
def forward_checking (I : Inst Q) (st : SState) : Bool × (Nat → List Nat) :=
  fcGo I st.routes st.assignments st.domains (csvars I) st.domains

/-- `_revise(x, y)`, returning the updated domain of `x`.  The inner
generator variable of the source shadows the outer loop variable
(`any(self.is_consistent(x, value, deepcopy(self.routes[value])) for
value in self.domains[y])`), which is mirrored here by the shadowed
binder: the kept/removed decision does not depend on the value being
tested. -/
def revise (I : Inst Q) (routes : List (List Nat)) (x : Nat)
    (dx dy : List Nat) : List Nat :=
  dx.filter (fun value =>
    dy.any (fun value => is_consistent I routes x (routes.getD value [])))

/-- The worklist loop of `_arc_consistency`.  A popped pair `(x, y)` is
revised; if the domain of `x` changed and became empty the pass fails,
if it changed but is non-empty all pairs `(z, x)` with `z ∉ {x, y}` are
appended to the queue.  Recursion is on an explicit fuel; `acFuel` below
exceeds the total number of pops any run can perform. -/
def acLoop (I : Inst Q) (routes : List (List Nat)) :
    Nat → List (Nat × Nat) → (Nat → List Nat) → Bool × (Nat → List Nat)
  | 0, _, d => (true, d)
  | _ + 1, [], d => (true, d)
  | fuel + 1, (x, y) :: rest, d =>
    let nd := revise I routes x (d x) (d y)
    if nd = d x then acLoop I routes fuel rest d
    else if nd.isEmpty then (false, updD d x nd)
    else
      acLoop I routes fuel
        (rest ++ ((csvars I).filter (fun z => z != x && z != y)).map (fun z => (z, x)))
        (updD d x nd)

/-- The initial worklist
`[(var, neighbor) for var in variables for neighbor in variables if var != neighbor]`. -/
def initQueue (I : Inst Q) : List (Nat × Nat) :=
  (csvars I).flatMap (fun x =>
    ((csvars I).filter (fun y => y != x)).map (fun y => (x, y)))

/-- Fuel bound for the arc-consistency worklist: each of the at most
`|vars| * k` value removals enqueues at most `|vars|` pairs, on top of
the initial queue. -/
def acFuel (I : Inst Q) (k : Nat) : Nat :=
  (initQueue I).length + (csvars I).length * (csvars I).length * (k + 1) + 1

/-- `_arc_consistency()` as invoked by `solve` at vehicle cap `k`: the
routes are the `k` empty routes and every domain is `list(range(k))`. -/
def arc_consistency (I : Inst Q) (k : Nat) : Bool × (Nat → List Nat) :=
  acLoop I (List.replicate k []) (acFuel I k) (initQueue I) (fun _ => List.range k)

/-- `_least_constraining_value(variable, value)`: the number of variables
in `self.variables` that are unassigned and still list `value` in their
domain.  (The source does not exclude `variable` itself from this count.) -/
def least_constraining_value (I : Inst Q) (st : SState) (v : Nat) : Nat :=
  ((csvars I).filter
    (fun n => !assignedIn st.assignments n && decide (v ∈ st.domains n))).length

/-- `_select_unassigned_variable()`: `min(unassigned, key=len of domain)`;
Python's `min` keeps the first minimum.  The `[]` case is unreachable in
the source (`min` of an empty list would raise). -/
def select_unassigned_variable (I : Inst Q) (st : SState) : Nat :=
  match (csvars I).filter (fun n => !assignedIn st.assignments n) with
  | [] => 0
  | a :: rest =>
    rest.foldl
      (fun acc n =>
        if (st.domains n).length < (st.domains acc).length then n else acc) a

/-- Python's `sorted(l, key=key)` is the stable sort by `key`;
`List.insertionSort` with the non-strict comparator is stable, hence
produces the same list. -/
def pySorted (key : Nat → Nat) (l : List Nat) : List Nat :=
  l.insertionSort (fun a b => key a ≤ key b)

end Solver

/-- The tentative commitment of `_backtrack`:
`self.assignments[variable] = value` (dict insert) and
`self.routes[value].append(variable)`. -/
def commitState (st : SState) (x v : Nat) : SState :=
  ⟨(x, v) :: st.assignments, st.domains,
    st.routes.set v (st.routes.getD v [] ++ [x])⟩

/-- The state seen by the recursive `_backtrack()` call after a
successful forward-checking pass left the domain store `d`.  Its routes
equal `previous_routes = deepcopy(self.routes)`: the source takes that
snapshot after the append, so the snapshot contains the commitment. -/
def fcState (st : SState) (x v : Nat) (d : Nat → List Nat) : SState :=
  ⟨(commitState st x v).assignments, d, (commitState st x v).routes⟩

/-- The state after the undo `self.assignments.pop(variable);
self.routes = previous_routes`, where `d` is whatever the forward
checking (and, after a failed recursion, the failed subtree) left in
`self.domains` — `_backtrack` never restores the domain store.  The
routes are the post-append snapshot: the committed variable is still in
`routes[value]`. -/
def undoState (st : SState) (x v : Nat) (d : Nat → List Nat) : SState :=
  ⟨(commitState st x v).assignments.eraseP (fun p => p.1 == x), d,
    (commitState st x v).routes⟩

section Solver2

variable {Q : Type} [LinearOrderedRing Q]

/-- The body of the `for value in sorted(...)` loop of `_backtrack`,
with the recursive call passed as `next`.  A consistent value is
committed, forward checking runs on the committed state; on success the
search recurses, and a failure (of the feasibility check, of forward
checking, or of the recursion) moves to the next candidate value in the
`undoState`. -/
def tryValuesAux (I : Inst Q)
    (next : SState → Option (List (List Nat)) × (Nat → List Nat)) :
    SState → Nat → List Nat → Option (List (List Nat)) × (Nat → List Nat)
  | st, _, [] => (none, st.domains)
  | st, x, v :: rest =>
    if is_consistent I st.routes x (st.routes.getD v []) then
      let fc := forward_checking I (commitState st x v)
      let res := if fc.1 then next (fcState st x v fc.2) else (none, fc.2)
      match res with
      | (some r, d) => (some r, d)
      | (none, d) => tryValuesAux I next (undoState st x v d) x rest
    else tryValuesAux I next st x rest

/-- `_backtrack()`: success when the assignment is complete, otherwise
select the MRV variable and try its values in LCV order.  The returned
domain store is the final value of `self.domains` (threaded explicitly,
see the module docstring).  `fuel` bounds the recursion depth; every
recursive call grows the assignment by one entry, so `bfuel` suffices. -/
def backtrack (I : Inst Q) : Nat → SState → Option (List (List Nat)) × (Nat → List Nat)
  | 0, st => (none, st.domains)
  | fuel + 1, st =>
    if st.assignments.length = (csvars I).length then (some st.routes, st.domains)
    else
      let x := select_unassigned_variable I st
      tryValuesAux I (backtrack I fuel) st x
        (pySorted (least_constraining_value I st) (st.domains x))

/-- Recursion-depth bound for `backtrack`: one level per assigned
variable plus the completeness check at the bottom. -/
def bfuel (I : Inst Q) : Nat := (csvars I).length + 1

/-- The state `solve` prepares for vehicle cap `k`:
`self.domains = {v: list(range(k))}`, `self.routes = {v: [] for v in
range(k)}`, `self.assignments = {}`. -/
def initState (k : Nat) : SState :=
  ⟨[], fun _ => List.range k, List.replicate k []⟩

/-- `backtracking_search()` run on the state `solve` prepares for cap `k`
(without the arc-consistency pass). -/
def backtracking_search (I : Inst Q) (k : Nat) : Option (List (List Nat)) :=
  (backtrack I (bfuel I) (initState k)).1

/-- One iteration of the loop in `solve`: reset the state for cap `k`,
run `_arc_consistency`, and only if it succeeds run the backtracking
search (on the domain store the pass left behind). -/
def attempt (I : Inst Q) (k : Nat) : Option (List (List Nat)) :=
  let ac := arc_consistency I k
  if ac.1 then (backtrack I (bfuel I) ⟨[], ac.2, List.replicate k []⟩).1
  else none

/-- The loop `for vehicle_limit in range(1, self.num_vehicles + 1)`:
`left` is the number of caps still to try, starting at cap `k`. -/
def solveGo (I : Inst Q) : Nat → Nat → Option (List (List Nat))
  | _, 0 => none
  | k, left + 1 =>
    match attempt I k with
    | some r => some r
    | none => solveGo I (k + 1) left

/-- `solve()`: try caps `1 .. num_vehicles` and return the first solution
(`if solution:` is only falsy for `None` here, since the routes dict has
at least one key for every cap tried). -/
def solve (I : Inst Q) : Option (List (List Nat)) :=
  solveGo I 1 I.numVehicles

/-- The leg sums of `calculate_total_distance` after the first leg:
consecutive legs and the final return to the depot. -/
def legsDist (I : Inst Q) : Nat → List Nat → Q
  | prev, [] => I.dist prev 0
  | prev, c :: rest => I.dist prev c + legsDist I c rest

/-- One route's contribution in `calculate_total_distance`: empty routes
are skipped (contribute 0), otherwise depot→first, consecutive legs,
last→depot. -/
def route_distance (I : Inst Q) : List Nat → Q
  | [] => 0
  | c :: rest => I.dist 0 c + legsDist I c rest

/-- `calculate_total_distance()` over a routes table. -/
def calculate_total_distance (I : Inst Q) (routes : List (List Nat)) : Q :=
  (routes.map (route_distance I)).sum

/-- The numeric outputs of `format_solution()`: the number of non-empty
routes (`len(formatted_routes)`) and the total distance.  The
human-readable route strings are not modelled. -/
def format_solution_counts (I : Inst Q) (routes : List (List Nat)) : Nat × Q :=
  ((routes.filter (fun r => !r.isEmpty)).length, calculate_total_distance I routes)

/-- Spec-side checker (§3 Route invariant / §8 testable properties): a
routes table is a feasible solution when every route respects capacity
and time windows, no customer is repeated, and every variable is served. -/
def feasibleSolution (I : Inst Q) (routes : List (List Nat)) : Bool :=
  routes.all (fun r =>
      decide (routeDemand I r ≤ I.capacity) && validate_time_windows I r) &&
    decide routes.flatten.Nodup &&
    (csvars I).all (fun x => decide (x ∈ routes.flatten))

/-- Spec-side single-customer feasibility (claim C7): the customer's
demand fits the vehicle capacity and it can be served within its window
travelling directly from the depot. -/
def singleCustomerFeasible (I : Inst Q) (x : Nat) : Bool :=
  decide (I.demand x ≤ I.capacity) && validate_time_windows I [x]

/-- Spec-side time-window simulation (§4.2), as a relation: from
previous stop `prev` at clock `clock`, each customer is reachable —
travel time is added, the clock waits for free until `ready_time`, and
the (possibly advanced) clock must not strictly exceed `due_time`;
service time is then added.  The empty route is always feasible. -/
inductive TWSim (I : Inst Q) : Nat → Q → List Nat → Prop
  | nil (prev : Nat) (clock : Q) : TWSim I prev clock []
  | cons (prev : Nat) (clock : Q) (c : Nat) (rest : List Nat)
      (hdue : max (clock + I.dist prev c) (I.ready c) ≤ I.due c)
      (hrest : TWSim I c (max (clock + I.dist prev c) (I.ready c) + I.service c) rest) :
      TWSim I prev clock (c :: rest)

end Solver2

/-- `euclidean_distance(loc1, loc2)` over exact reals (the source
computes `math.sqrt((x1-x2)**2 + (y1-y2)**2)` on floats). -/
noncomputable def euclidean_distance (a b : Rat × Rat) : Real :=
  Real.sqrt (((a.1 - b.1 : Rat) : Real) ^ 2 + ((a.2 - b.2 : Rat) : Real) ^ 2)

/-- `_create_distance_matrix()` as a function of the location list:
entry `(i, j)` is the Euclidean distance between locations `i` and `j`. -/
noncomputable def create_distance_matrix (locations : List (Rat × Rat))
    (i j : Nat) : Real :=
  euclidean_distance (locations.getD i (0, 0)) (locations.getD j (0, 0))

/-! ### Concrete instances

All instances place their locations on the x-axis, so the Euclidean
distance matrix is integer-valued (`lineDist`), and runs of the solver
can be evaluated by `decide` at `Q = Int`.  The bridging lemma
`lineDist_eq_create_distance_matrix` connects each such matrix to the
matrix `_create_distance_matrix` computes from the coordinates. -/

/-- Distances between points on the x-axis: `|x_i - x_j|`. -/
def lineDist (coord : Nat → Int) : Nat → Nat → Int :=
  fun i j => |coord i - coord j|

/-- x-coordinates of `instA`: depot at 0, customer 1 at 2, customer 2 at 1. -/
def coordA : Nat → Int
  | 1 => 2
  | 2 => 1
  | _ => 0

/-- Due times of `instA`: customer 2 must be served by time 1. -/
def dueA : Nat → Int
  | 1 => 10
  | 2 => 1
  | _ => 1000

/-- Instance for C2: two customers on a line where the only feasible
single-vehicle route is `[2, 1]` (customer 2 first), but the MRV
heuristic assigns customer 1 first, so the search can only ever build
`[1, 2]`. -/
def instA : Inst Int :=
  { numCustomers := 3, numVehicles := 1, capacity := 100,
    demand := fun n => if n = 0 then 0 else 10,
    ready := fun _ => 0, due := dueA, service := fun _ => 0,
    dist := lineDist coordA }

/-- Location list of `instA` (for the distance-matrix bridge). -/
def locsA : List (Rat × Rat) := [(0, 0), (2, 0), (1, 0)]

/-- Due times of `instB`: customer 4 must be served by time 4. -/
def dueB : Nat → Int
  | 4 => 4
  | _ => 1000

/-- Service times of `instB`: customers 2 and 3 take 2 time units. -/
def servB : Nat → Int
  | 2 => 2
  | 3 => 2
  | _ => 0

/-- Instance for C1: four customers at x = 1, 2, 3, 4, demands 10,
capacity 25 (at most two customers per vehicle), two vehicles.  Feasible
pairs: `[1,2]`, `[1,3]`, `[1,4]`, `[2,3]`; `[2,4]` and `[3,4]` miss
customer 4's due time.  `[[1,4],[2,3]]` is a feasible solution. -/
def instB : Inst Int :=
  { numCustomers := 5, numVehicles := 2, capacity := 25,
    demand := fun n => if n = 0 then 0 else 10,
    ready := fun _ => 0, due := dueB, service := servB,
    dist := lineDist (fun n => (n : Int)) }

/-- Location list of `instB`. -/
def locsB : List (Rat × Rat) := [(0, 0), (1, 0), (2, 0), (3, 0), (4, 0)]

/-- The state of the search node `backtracking_search instB 2` reaches
after committing customer 1 to vehicle 0 at the root and running forward
checking (which prunes nothing): customer 1 assigned and routed on
vehicle 0, all domains `[0, 1]`. -/
def stB : SState := ⟨[(1, 0)], fun _ => [0, 1], [[1], []]⟩

/-- Instance for C7: a single customer whose demand 200 exceeds the
capacity 100 (infeasible on its own). -/
def instC7 : Inst Int :=
  { numCustomers := 2, numVehicles := 1, capacity := 100,
    demand := fun n => if n = 0 then 0 else 200,
    ready := fun _ => 0, due := fun _ => 1000, service := fun _ => 0,
    dist := lineDist (fun n => (n : Int)) }

/-- Location list of `instC7`. -/
def locsC7 : List (Rat × Rat) := [(0, 0), (1, 0)]

/-- A trivially solvable instance (one easy customer, two vehicles),
used by witnesses: `solve` returns `[[1]]` at cap 1. -/
def instW : Inst Int :=
  { numCustomers := 2, numVehicles := 2, capacity := 100,
    demand := fun n => if n = 0 then 0 else 10,
    ready := fun _ => 0, due := fun _ => 1000, service := fun _ => 0,
    dist := lineDist (fun n => (n : Int)) }

/-- A depot-only instance (no non-depot customers), used by the C10
witness. -/
def instD : Inst Int :=
  { numCustomers := 1, numVehicles := 3, capacity := 5,
    demand := fun _ => 0, ready := fun _ => 0, due := fun _ => 0,
    service := fun _ => 0, dist := fun _ _ => 0 }

/-! ### Bridging lemmas: the integer line matrices are the Euclidean
matrices of the corresponding coordinate lists. -/

/-- For two points on the x-axis the Euclidean distance is the absolute
difference of the x-coordinates. -/
theorem euclidean_distance_axis (a b : Rat) :
    euclidean_distance (a, 0) (b, 0) = |((a : Real) - (b : Real))| := by
  unfold euclidean_distance
  push_cast
  rw [sub_zero, zero_pow (by norm_num), add_zero, Real.sqrt_sq_eq_abs]

/-- A `lineDist` matrix agrees with `_create_distance_matrix` on any
location list whose points lie on the x-axis at those coordinates. -/
theorem lineDist_eq_create_distance_matrix (c : Nat → Int)
    (locs : List (Rat × Rat))
    (h : ∀ i, i < locs.length → locs.getD i (0, 0) = ((c i : Rat), 0)) :
    ∀ i j, i < locs.length → j < locs.length →
      ((lineDist c i j : Int) : Real) = create_distance_matrix locs i j := by
  intro i j hi hj
  unfold create_distance_matrix
  rw [h i hi, h j hj, euclidean_distance_axis]
  push_cast [lineDist]
  norm_cast

/-- The solver matrix of `instA` is the Euclidean matrix of `locsA`. -/
theorem instA_matrix_euclidean :
    ∀ i j, i < 3 → j < 3 →
      ((instA.dist i j : Int) : Real) = create_distance_matrix locsA i j := by
  have h : ∀ i, i < locsA.length → locsA.getD i (0, 0) = ((coordA i : Rat), 0) := by
    decide
  exact fun i j hi hj => lineDist_eq_create_distance_matrix coordA locsA h i j hi hj

/-- The solver matrix of `instB` is the Euclidean matrix of `locsB`. -/
theorem instB_matrix_euclidean :
    ∀ i j, i < 5 → j < 5 →
      ((instB.dist i j : Int) : Real) = create_distance_matrix locsB i j := by
  have h : ∀ i, i < locsB.length → locsB.getD i (0, 0) = (((i : Int) : Rat), 0) := by
    decide
  exact fun i j hi hj =>
    lineDist_eq_create_distance_matrix (fun n => (n : Int)) locsB h i j hi hj

/-- The solver matrix of `instC7` is the Euclidean matrix of `locsC7`. -/
theorem instC7_matrix_euclidean :
    ∀ i j, i < 2 → j < 2 →
      ((instC7.dist i j : Int) : Real) = create_distance_matrix locsC7 i j := by
  have h : ∀ i, i < locsC7.length → locsC7.getD i (0, 0) = (((i : Int) : Rat), 0) := by
    decide
  exact fun i j hi hj =>
    lineDist_eq_create_distance_matrix (fun n => (n : Int)) locsC7 h i j hi hj

/-! ### Search-state invariant and soundness of the backtracking search
(shared by claims C2 and C3) -/

/-- The variable list of an instance has no duplicates. -/
theorem csvars_nodup {Q : Type} [LinearOrderedRing Q] (I : Inst Q) :
    (csvars I).Nodup :=
  List.nodup_range' _ _

/-- Appending the new customer to one route permutes the flattened
routes table with the customer consed on. -/
theorem flatten_set_perm :
    ∀ (l : List (List Nat)) (i : Nat) (x : Nat), i < l.length →
      (l.set i (l.getD i [] ++ [x])).flatten.Perm (x :: l.flatten) := by
  intro l
  induction l with
  | nil =>
    intro i x h
    simp at h
  | cons r0 rs ih =>
    intro i x h
    cases i with
    | zero =>
      simp only [List.getD_cons_zero, List.set_cons_zero, List.flatten_cons]
      rw [List.append_assoc]
      exact List.perm_middle
    | succ n =>
      simp only [List.getD_cons_succ, List.set_cons_succ, List.flatten_cons]
      have hp := ih n x (by simpa using Nat.lt_of_succ_lt_succ h)
      have hstep : (r0 ++ (rs.set n (rs.getD n [] ++ [x])).flatten).Perm
          (r0 ++ (x :: rs.flatten)) := hp.append_left r0
      exact hstep.trans List.perm_middle

/-- Membership in a route is preserved when some route receives an
append. -/
theorem mem_getD_set (l : List (List Nat)) (i j x y : Nat)
    (hy : y ∈ l.getD j []) : y ∈ (l.set i (l.getD i [] ++ [x])).getD j [] := by
  by_cases hj : j < l.length
  · by_cases hij : i = j
    · subst hij
      rw [List.getD_eq_getElem _ _ (by simpa using hj), List.getElem_set_self]
      exact List.mem_append_left _ hy
    · rw [List.getD_eq_getElem _ _ (by simpa using hj), List.getElem_set_ne hij]
      rw [List.getD_eq_getElem _ _ hj] at hy
      exact hy
  · rw [List.getD_eq_default _ _ (by simpa using Nat.le_of_not_lt hj)] at hy
    simp at hy

/-- A member of an in-range route is in the flattened table. -/
theorem mem_flatten_of_getD (l : List (List Nat)) (j y : Nat)
    (hj : j < l.length) (hy : y ∈ l.getD j []) : y ∈ l.flatten := by
  rw [List.getD_eq_getElem _ _ hj] at hy
  exact List.mem_flatten.mpr ⟨l[j], List.getElem_mem hj, hy⟩

/-- A fold that always keeps either the accumulator or the next element
returns a member of the accumulator-and-list. -/
theorem foldl_choice_mem (g : Nat → Nat → Nat)
    (hg : ∀ acc n, g acc n = n ∨ g acc n = acc) :
    ∀ (l : List Nat) (a : Nat), l.foldl g a ∈ a :: l := by
  intro l
  induction l with
  | nil =>
    intro a
    simp
  | cons b t ih =>
    intro a
    simp only [List.foldl_cons]
    rcases List.mem_cons.mp (ih (g a b)) with h | h
    · rw [h]
      rcases hg a b with h2 | h2 <;> rw [h2] <;> simp
    · simp [h]

/-- When the assignment is incomplete, the MRV selection returns an
unassigned variable of the instance. -/
theorem select_unassigned_variable_mem {Q : Type} [LinearOrderedRing Q]
    (I : Inst Q) (st : SState)
    (hkeys_nodup : (st.assignments.map Prod.fst).Nodup)
    (hkeys_sub : ∀ p ∈ st.assignments, p.1 ∈ csvars I)
    (hne : st.assignments.length ≠ (csvars I).length) :
    select_unassigned_variable I st ∈ csvars I ∧
      assignedIn st.assignments (select_unassigned_variable I st) = false := by
  unfold select_unassigned_variable
  rcases hf : (csvars I).filter (fun n => !assignedIn st.assignments n)
    with _ | ⟨a, rest⟩
  · exfalso
    have hsub2 : csvars I ⊆ st.assignments.map Prod.fst := by
      intro n hn
      by_contra hmem
      have hafalse : assignedIn st.assignments n = false := by
        cases hb : assignedIn st.assignments n
        · rfl
        · exfalso
          apply hmem
          rcases List.any_eq_true.mp hb with ⟨p, hp, hpn⟩
          have hpn' : p.1 = n := by simpa using hpn
          exact List.mem_map.mpr ⟨p, hp, hpn'⟩
      have hmemf : n ∈ (csvars I).filter (fun n => !assignedIn st.assignments n) := by
        rw [List.mem_filter]
        exact ⟨hn, by simp [hafalse]⟩
      rw [hf] at hmemf
      simp at hmemf
    have h1 : (csvars I).length ≤ st.assignments.length := by
      have := ((csvars_nodup I).subperm hsub2).length_le
      simpa using this
    have h2 : st.assignments.length ≤ (csvars I).length := by
      have hsub1 : st.assignments.map Prod.fst ⊆ csvars I := by
        intro n hn
        rcases List.mem_map.mp hn with ⟨p, hp, hpn⟩
        exact hpn ▸ hkeys_sub p hp
      have := (hkeys_nodup.subperm hsub1).length_le
      simpa using this
    omega
  · have hmem : rest.foldl
        (fun acc n => if (st.domains n).length < (st.domains acc).length then n else acc) a ∈
        (csvars I).filter (fun n => !assignedIn st.assignments n) := by
      rw [hf]
      exact foldl_choice_mem _
        (fun acc n => by
          by_cases h : (st.domains n).length < (st.domains acc).length <;> simp [h])
        rest a
    rcases List.mem_filter.mp hmem with ⟨h1, h2⟩
    exact ⟨h1, by simpa using h2⟩

/-- The forward-checking loop only shrinks domains: any predicate of the
input store and of the entry snapshot holds of the output store. -/
theorem fcGo_snd_pred {Q : Type} [LinearOrderedRing Q] (I : Inst Q)
    (routes : List (List Nat)) (asg : List (Nat × Nat)) (orig : Nat → List Nat)
    (P : Nat → Prop) (horig : ∀ n v, v ∈ orig n → P v) :
    ∀ (vars : List Nat) (d : Nat → List Nat), (∀ n v, v ∈ d n → P v) →
      ∀ n v, v ∈ (fcGo I routes asg orig vars d).2 n → P v := by
  intro vars
  induction vars with
  | nil =>
    intro d hd
    exact hd
  | cons m rest ih =>
    intro d hd
    simp only [fcGo]
    by_cases ha : assignedIn asg m = true
    · rw [if_pos ha]
      exact ih d hd
    · rw [if_neg ha]
      by_cases he :
          ((d m).filter (fun v => is_consistent I routes m (routes.getD v []))).isEmpty = true
      · rw [if_pos he]
        exact horig
      · rw [if_neg he]
        apply ih
        intro n v hv
        by_cases hnm : n = m
        · subst hnm
          simp only [updD, if_pos rfl] at hv
          exact hd _ v (List.mem_of_mem_filter hv)
        · simp only [updD, if_neg hnm] at hv
          exact hd n v hv

/-- The value loop only shrinks the domain store (given that the
recursive call does). -/
theorem tryValuesAux_snd_pred {Q : Type} [LinearOrderedRing Q] (I : Inst Q)
    (P : Nat → Prop)
    (next : SState → Option (List (List Nat)) × (Nat → List Nat))
    (hnext : ∀ st, (∀ n v, v ∈ st.domains n → P v) →
      ∀ n v, v ∈ (next st).2 n → P v) :
    ∀ (vs : List Nat) (st : SState) (x : Nat),
      (∀ n v, v ∈ st.domains n → P v) →
      ∀ n v, v ∈ (tryValuesAux I next st x vs).2 n → P v := by
  intro vs
  induction vs with
  | nil =>
    intro st x hd
    exact hd
  | cons v rest ih =>
    intro st x hd
    simp only [tryValuesAux]
    by_cases hc : is_consistent I st.routes x (st.routes.getD v []) = true
    · rw [if_pos hc]
      have hfc2 : ∀ n w, w ∈ (forward_checking I (commitState st x v)).2 n → P w :=
        fcGo_snd_pred I _ _ _ P hd _ _ hd
      by_cases hfc : (forward_checking I (commitState st x v)).1 = true
      · rw [if_pos hfc]
        rcases hres : next (fcState st x v (forward_checking I (commitState st x v)).2)
          with ⟨o, d⟩
        have hdres : ∀ n w, w ∈ d n → P w := by
          intro n w hw
          exact hnext _ hfc2 n w (by rw [hres]; exact hw)
        cases o with
        | some r' =>
          simp only []
          exact hdres
        | none =>
          simp only []
          exact ih (undoState st x v d) x hdres
      · rw [if_neg hfc]
        simp only []
        exact ih (undoState st x v ((forward_checking I (commitState st x v)).2)) x hfc2
    · rw [if_neg hc]
      exact ih st x hd

/-- The backtracking search only shrinks the domain store. -/
theorem backtrack_snd_pred {Q : Type} [LinearOrderedRing Q] (I : Inst Q)
    (P : Nat → Prop) :
    ∀ (fuel : Nat) (st : SState), (∀ n v, v ∈ st.domains n → P v) →
      ∀ n v, v ∈ (backtrack I fuel st).2 n → P v := by
  intro fuel
  induction fuel with
  | zero =>
    intro st hd
    exact hd
  | succ f ih =>
    intro st hd
    simp only [backtrack]
    by_cases hdone : st.assignments.length = (csvars I).length
    · rw [if_pos hdone]
      exact hd
    · rw [if_neg hdone]
      exact tryValuesAux_snd_pred I P (backtrack I f) (fun st' => ih st') _ st _ hd

/-- The arc-consistency worklist loop only shrinks the domain store. -/
theorem acLoop_snd_pred {Q : Type} [LinearOrderedRing Q] (I : Inst Q)
    (routes : List (List Nat)) (P : Nat → Prop) :
    ∀ (fuel : Nat) (q : List (Nat × Nat)) (d : Nat → List Nat),
      (∀ n v, v ∈ d n → P v) → ∀ n v, v ∈ (acLoop I routes fuel q d).2 n → P v := by
  intro fuel
  induction fuel with
  | zero =>
    intro q d hd
    exact hd
  | succ f ih =>
    intro q d hd
    cases q with
    | nil => exact hd
    | cons p rest =>
      obtain ⟨x, y⟩ := p
      simp only [acLoop]
      have hupd : ∀ n v, v ∈ updD d x (revise I routes x (d x) (d y)) n → P v := by
        intro n v hv
        by_cases hnx : n = x
        · subst hnx
          simp only [updD, if_pos rfl] at hv
          unfold revise at hv
          exact hd _ v (List.mem_of_mem_filter hv)
        · simp only [updD, if_neg hnx] at hv
          exact hd n v hv
      by_cases h1 : revise I routes x (d x) (d y) = d x
      · rw [if_pos h1]
        exact ih rest d hd
      · rw [if_neg h1]
        by_cases h2 : (revise I routes x (d x) (d y)).isEmpty = true
        · rw [if_pos h2]
          exact hupd
        · rw [if_neg h2]
          exact ih _ _ hupd

/-- Every value in the domain store left behind by the arc-consistency
pass at cap `k` is a valid vehicle index below `k`. -/
theorem ac_snd_lt {Q : Type} [LinearOrderedRing Q] (I : Inst Q) (k : Nat) :
    ∀ n v, v ∈ (arc_consistency I k).2 n → v < k := by
  unfold arc_consistency
  apply acLoop_snd_pred
  intro n v hv
  simpa using hv

/-- Appending one customer adds its demand to the route demand. -/
theorem routeDemand_append {Q : Type} [LinearOrderedRing Q] (I : Inst Q)
    (r : List Nat) (x : Nat) :
    routeDemand I (r ++ [x]) = routeDemand I r + I.demand x := by
  simp [routeDemand]

/-- The search-state invariant maintained by `_backtrack` (§3 Route
invariant): all routes respect capacity and time windows, no customer is
repeated across routes, every assignment entry is routed on its vehicle,
the assignment keys are distinct variables, and every domain value is a
valid vehicle index. -/
structure StInv {Q : Type} [LinearOrderedRing Q] (I : Inst Q) (st : SState) : Prop where
  cap_tw : ∀ r ∈ st.routes, routeDemand I r ≤ I.capacity ∧
    validate_time_windows I r = true
  flat_nodup : st.routes.flatten.Nodup
  asg_mem : ∀ p ∈ st.assignments, p.2 < st.routes.length ∧
    p.1 ∈ st.routes.getD p.2 []
  keys_nodup : (st.assignments.map Prod.fst).Nodup
  keys_sub : ∀ p ∈ st.assignments, p.1 ∈ csvars I
  dom_lt : ∀ n v, v ∈ st.domains n → v < st.routes.length

/-- The feasibility conclusions claim C3 asserts of a returned solution. -/
def goodRoutes {Q : Type} [LinearOrderedRing Q] (I : Inst Q)
    (r : List (List Nat)) : Prop :=
  (∀ route ∈ r, routeDemand I route ≤ I.capacity ∧
    validate_time_windows I route = true) ∧
  r.flatten.Nodup ∧ ∀ x ∈ csvars I, x ∈ r.flatten

/-- A tentative commitment that passes `is_consistent` preserves the
search-state invariant. -/
theorem StInv_commit {Q : Type} [LinearOrderedRing Q] (I : Inst Q)
    (st : SState) (x v : Nat) (hinv : StInv I st) (hx : x ∈ csvars I)
    (hv : v < st.routes.length)
    (hc : is_consistent I st.routes x (st.routes.getD v []) = true) :
    StInv I (commitState st x v) := by
  unfold is_consistent at hc
  by_cases h1 : st.routes.any (fun r => decide (x ∈ r)) = true
  · rw [if_pos h1] at hc
    cases hc
  · rw [if_neg h1] at hc
    by_cases h2 : I.capacity < routeDemand I (st.routes.getD v []) + I.demand x
    · rw [if_pos h2] at hc
      cases hc
    · rw [if_neg h2] at hc
      have hxnot : ∀ r ∈ st.routes, x ∉ r := by
        intro r hr hxr
        exact h1 (List.any_eq_true.mpr ⟨r, hr, by simpa using hxr⟩)
      have hxflat : x ∉ st.routes.flatten := by
        intro hmem
        rcases List.mem_flatten.mp hmem with ⟨r, hr, hxr⟩
        exact hxnot r hr hxr
      constructor
      · intro r hr
        rcases List.mem_or_eq_of_mem_set hr with hold | hnew
        · exact hinv.cap_tw r hold
        · rw [hnew]
          refine ⟨?_, hc⟩
          rw [routeDemand_append]
          exact not_lt.mp h2
      · have hperm := flatten_set_perm st.routes v x hv
        show (st.routes.set v (st.routes.getD v [] ++ [x])).flatten.Nodup
        rw [hperm.nodup_iff]
        exact List.nodup_cons.mpr ⟨hxflat, hinv.flat_nodup⟩
      · intro p hp
        rcases List.mem_cons.mp hp with hp0 | hp0
        · rw [hp0]
          refine ⟨by simpa [commitState] using hv, ?_⟩
          show x ∈ (st.routes.set v (st.routes.getD v [] ++ [x])).getD v []
          rw [List.getD_eq_getElem _ _ (by simpa using hv), List.getElem_set_self]
          exact List.mem_append_right _ (List.mem_singleton_self x)
        · obtain ⟨hlt, hmem⟩ := hinv.asg_mem p hp0
          exact ⟨by simpa [commitState] using hlt, mem_getD_set st.routes v p.2 x p.1 hmem⟩
      · simp only [commitState, List.map_cons]
        apply List.nodup_cons.mpr
        refine ⟨?_, hinv.keys_nodup⟩
        intro hxkeys
        rcases List.mem_map.mp hxkeys with ⟨p, hp, hpx⟩
        obtain ⟨hlt, hmem⟩ := hinv.asg_mem p hp
        apply hxflat
        rw [← hpx]
        exact mem_flatten_of_getD st.routes p.2 p.1 hlt hmem
      · intro p hp
        rcases List.mem_cons.mp hp with hp0 | hp0
        · rw [hp0]
          exact hx
        · exact hinv.keys_sub p hp0
      · intro n w hw
        have := hinv.dom_lt n w hw
        simpa [commitState] using this

/-- The recursion state after a successful forward-checking pass keeps
the invariant, given that the new domain store is index-bounded. -/
theorem StInv_fcState {Q : Type} [LinearOrderedRing Q] (I : Inst Q)
    (st : SState) (x v : Nat) (d : Nat → List Nat)
    (hcom : StInv I (commitState st x v))
    (hd : ∀ n w, w ∈ d n → w < (commitState st x v).routes.length) :
    StInv I (fcState st x v d) :=
  ⟨hcom.cap_tw, hcom.flat_nodup, hcom.asg_mem, hcom.keys_nodup, hcom.keys_sub, hd⟩

/-- The undo state (post-append snapshot, popped assignment, whatever
domain store the subtree left) keeps the invariant. -/
theorem StInv_undo {Q : Type} [LinearOrderedRing Q] (I : Inst Q)
    (st : SState) (x v : Nat) (d : Nat → List Nat)
    (hcom : StInv I (commitState st x v))
    (hd : ∀ n w, w ∈ d n → w < (commitState st x v).routes.length) :
    StInv I (undoState st x v d) := by
  have herase : ((commitState st x v).assignments).eraseP (fun p => p.1 == x) =
      st.assignments := by
    simp [commitState, List.eraseP_cons_of_pos]
  constructor
  · exact hcom.cap_tw
  · exact hcom.flat_nodup
  · intro p hp
    rw [show (undoState st x v d).assignments = st.assignments from herase] at hp
    exact hcom.asg_mem p (List.mem_cons_of_mem _ hp)
  · rw [show (undoState st x v d).assignments = st.assignments from herase]
    have h := hcom.keys_nodup
    simp only [commitState, List.map_cons] at h
    exact (List.nodup_cons.mp h).2
  · intro p hp
    rw [show (undoState st x v d).assignments = st.assignments from herase] at hp
    exact hcom.keys_sub p (List.mem_cons_of_mem _ hp)
  · exact hd

/-- In a complete invariant state every variable is served by some
route. -/
theorem complete_coverage {Q : Type} [LinearOrderedRing Q] (I : Inst Q)
    (st : SState) (hinv : StInv I st)
    (hcomp : st.assignments.length = (csvars I).length) :
    ∀ y ∈ csvars I, y ∈ st.routes.flatten := by
  intro y hy
  have hykeys : y ∈ st.assignments.map Prod.fst := by
    by_contra hny
    have hsub : st.assignments.map Prod.fst ⊆ (csvars I).erase y := by
      intro n hn
      have hnvar : n ∈ csvars I := by
        rcases List.mem_map.mp hn with ⟨p, hp, hpn⟩
        exact hpn ▸ hinv.keys_sub p hp
      have hne : n ≠ y := fun h => hny (h ▸ hn)
      exact (List.mem_erase_of_ne hne).mpr hnvar
    have hlen := (hinv.keys_nodup.subperm hsub).length_le
    rw [List.length_erase_of_mem hy, List.length_map] at hlen
    have hpos : 0 < (csvars I).length := List.length_pos_of_mem hy
    omega
  rcases List.mem_map.mp hykeys with ⟨p, hp, hpy⟩
  obtain ⟨hlt, hmem⟩ := hinv.asg_mem p hp
  rw [← hpy]
  exact mem_flatten_of_getD st.routes p.2 p.1 hlt hmem

/-- Sorting by the LCV key permutes the domain, so membership is
unchanged. -/
theorem mem_pySorted (key : Nat → Nat) (l : List Nat) (w : Nat) :
    w ∈ pySorted key l ↔ w ∈ l :=
  (List.perm_insertionSort _ l).mem_iff

/-- Soundness of the value loop: a solution it returns satisfies the
C3 feasibility conclusions, provided the recursive call is sound and
only shrinks domains. -/
theorem tryValuesAux_sound {Q : Type} [LinearOrderedRing Q] (I : Inst Q)
    (L : Nat) (next : SState → Option (List (List Nat)) × (Nat → List Nat))
    (hnextS : ∀ st r, StInv I st → (next st).1 = some r → goodRoutes I r)
    (hnextD : ∀ st, (∀ n w, w ∈ st.domains n → w < L) →
      ∀ n w, w ∈ (next st).2 n → w < L) :
    ∀ (vs : List Nat) (st : SState) (x : Nat) (r : List (List Nat)),
      StInv I st → st.routes.length = L → x ∈ csvars I → (∀ w ∈ vs, w < L) →
      (tryValuesAux I next st x vs).1 = some r → goodRoutes I r := by
  intro vs
  induction vs with
  | nil =>
    intro st x r _ _ _ _ h
    simp [tryValuesAux] at h
  | cons v rest ih =>
    intro st x r hinv hL hx hvals h
    simp only [tryValuesAux] at h
    by_cases hc : is_consistent I st.routes x (st.routes.getD v []) = true
    · rw [if_pos hc] at h
      have hvL : v < st.routes.length := by
        rw [hL]
        exact hvals v (List.mem_cons_self _ _)
      have hcommit : StInv I (commitState st x v) := StInv_commit I st x v hinv hx hvL hc
      have hcomlen : (commitState st x v).routes.length = L := by
        simpa [commitState] using hL
      have hdomL : ∀ n w, w ∈ st.domains n → w < L := by
        intro n w hw
        rw [← hL]
        exact hinv.dom_lt n w hw
      have hfc2 : ∀ n w, w ∈ (forward_checking I (commitState st x v)).2 n → w < L :=
        fcGo_snd_pred I _ _ _ (fun w => w < L) hdomL _ _ hdomL
      by_cases hfc : (forward_checking I (commitState st x v)).1 = true
      · rw [if_pos hfc] at h
        rcases hres : next (fcState st x v (forward_checking I (commitState st x v)).2)
          with ⟨o, d⟩
        rw [hres] at h
        cases o with
        | some r' =>
          simp only [Option.some.injEq] at h
          have hfcInv : StInv I
              (fcState st x v (forward_checking I (commitState st x v)).2) :=
            StInv_fcState I st x v _ hcommit
              (by
                intro n w hw
                rw [hcomlen]
                exact hfc2 n w hw)
          have hgood := hnextS _ r' hfcInv (by rw [hres])
          rw [← h]
          exact hgood
        | none =>
          have hdb : ∀ n w, w ∈ d n → w < L := by
            intro n w hw
            exact hnextD (fcState st x v (forward_checking I (commitState st x v)).2)
              hfc2 n w (by rw [hres]; exact hw)
          have hundo : StInv I (undoState st x v d) :=
            StInv_undo I st x v d hcommit
              (by
                intro n w hw
                rw [hcomlen]
                exact hdb n w hw)
          exact ih (undoState st x v d) x r hundo
            (by simpa [undoState, commitState] using hL) hx
            (fun w hw => hvals w (List.mem_cons_of_mem _ hw)) h
      · rw [if_neg hfc] at h
        have hundo : StInv I
            (undoState st x v ((forward_checking I (commitState st x v)).2)) :=
          StInv_undo I st x v _ hcommit
            (by
              intro n w hw
              rw [hcomlen]
              exact hfc2 n w hw)
        exact ih _ x r hundo (by simpa [undoState, commitState] using hL) hx
          (fun w hw => hvals w (List.mem_cons_of_mem _ hw)) h
    · rw [if_neg hc] at h
      exact ih st x r hinv hL hx (fun w hw => hvals w (List.mem_cons_of_mem _ hw)) h

/-- Soundness of `_backtrack`: any solution it returns from an
invariant state satisfies the C3 feasibility conclusions. -/
theorem backtrack_sound {Q : Type} [LinearOrderedRing Q] (I : Inst Q) :
    ∀ (fuel : Nat) (st : SState) (r : List (List Nat)),
      StInv I st → (backtrack I fuel st).1 = some r → goodRoutes I r := by
  intro fuel
  induction fuel with
  | zero =>
    intro st r _ h
    simp [backtrack] at h
  | succ f ih =>
    intro st r hinv h
    simp only [backtrack] at h
    by_cases hdone : st.assignments.length = (csvars I).length
    · rw [if_pos hdone] at h
      simp only [Option.some.injEq] at h
      rw [← h]
      exact ⟨hinv.cap_tw, hinv.flat_nodup, complete_coverage I st hinv hdone⟩
    · rw [if_neg hdone] at h
      have hsel := select_unassigned_variable_mem I st hinv.keys_nodup hinv.keys_sub hdone
      refine tryValuesAux_sound I st.routes.length (backtrack I f)
        (fun st' r' hinv' h' => ih st' r' hinv' h')
        (fun st' hb => backtrack_snd_pred I (fun w => w < st.routes.length) f st' hb)
        _ st _ r hinv rfl hsel.1 ?_ h
      intro w hw
      rw [mem_pySorted] at hw
      exact hinv.dom_lt _ w hw

/-- The fresh state `solve` prepares at cap `k` satisfies the invariant
(given a non-negative capacity, so the `k` empty routes respect it). -/
theorem StInv_fresh {Q : Type} [LinearOrderedRing Q] (I : Inst Q) (k : Nat)
    (hcap : 0 ≤ I.capacity) (d : Nat → List Nat)
    (hd : ∀ n w, w ∈ d n → w < k) :
    StInv I ⟨[], d, List.replicate k []⟩ := by
  have hflat : (List.replicate k ([] : List Nat)).flatten = [] := by
    induction k with
    | zero => rfl
    | succ n ihn => simp [List.replicate_succ, ihn]
  constructor
  · intro r hr
    rw [List.eq_of_mem_replicate hr]
    exact ⟨by simpa [routeDemand] using hcap, rfl⟩
  · show (List.replicate k ([] : List Nat)).flatten.Nodup
    rw [hflat]
    exact List.nodup_nil
  · intro p hp
    cases hp
  · simp
  · intro p hp
    cases hp
  · intro n w hw
    have := hd n w hw
    simpa using this

/-- The Boolean spec-side checker agrees with the `goodRoutes`
conclusions. -/
theorem feasibleSolution_of_goodRoutes {Q : Type} [LinearOrderedRing Q]
    (I : Inst Q) (r : List (List Nat)) (hg : goodRoutes I r) :
    feasibleSolution I r = true := by
  obtain ⟨h1, h2, h3⟩ := hg
  unfold feasibleSolution
  simp only [Bool.and_eq_true, List.all_eq_true, decide_eq_true_eq]
  refine ⟨⟨?_, h2⟩, ?_⟩
  · intro route hr
    obtain ⟨ha, hb⟩ := h1 route hr
    simp [ha, hb]
  · intro x hx
    exact h3 x hx

/-! ### Claim C4 -/

/-- An instance whose arc-consistency pass genuinely fails: customer 2's
demand 200 exceeds the capacity 100 and there are two variables. -/
def instF : Inst Int :=
  { numCustomers := 3, numVehicles := 2, capacity := 100,
    demand := fun n => if n = 2 then 200 else if n = 0 then 0 else 10,
    ready := fun _ => 0, due := fun _ => 1000, service := fun _ => 0,
    dist := lineDist (fun n => (n : Int)) }

/-- The value loop never changes the number of routes of a returned
solution: appends go through `List.set` and the undo state restores the
(post-append) snapshot, both of which preserve the length. -/
theorem tryValuesAux_fst_length {Q : Type} [LinearOrderedRing Q] (I : Inst Q)
    (next : SState → Option (List (List Nat)) × (Nat → List Nat))
    (hnext : ∀ st r, (next st).1 = some r → r.length = st.routes.length) :
    ∀ (vs : List Nat) (st : SState) (x : Nat) (r : List (List Nat)),
      (tryValuesAux I next st x vs).1 = some r → r.length = st.routes.length := by
  intro vs
  induction vs with
  | nil =>
    intro st x r h
    simp [tryValuesAux] at h
  | cons v rest ih =>
    intro st x r h
    simp only [tryValuesAux] at h
    by_cases hc : is_consistent I st.routes x (st.routes.getD v []) = true
    · rw [if_pos hc] at h
      by_cases hfc : (forward_checking I (commitState st x v)).1 = true
      · rw [if_pos hfc] at h
        rcases hres : next (fcState st x v (forward_checking I (commitState st x v)).2)
          with ⟨o, d⟩
        rw [hres] at h
        cases o with
        | some r' =>
          simp only [Option.some.injEq] at h
          have hlen := hnext _ r' (by rw [hres])
          rw [← h]
          simpa [fcState, commitState] using hlen
        | none =>
          have := ih (undoState st x v d) x r h
          simpa [undoState, commitState] using this
      · rw [if_neg hfc] at h
        have := ih (undoState st x v ((forward_checking I (commitState st x v)).2)) x r h
        simpa [undoState, commitState] using this
    · rw [if_neg hc] at h
      exact ih st x r h

/-- A solution returned by `_backtrack` has exactly as many routes as
the state it was started from. -/
theorem backtrack_fst_length {Q : Type} [LinearOrderedRing Q] (I : Inst Q) :
    ∀ (fuel : Nat) (st : SState) (r : List (List Nat)),
      (backtrack I fuel st).1 = some r → r.length = st.routes.length := by
  intro fuel
  induction fuel with
  | zero =>
    intro st r h
    simp [backtrack] at h
  | succ f ih =>
    intro st r h
    simp only [backtrack] at h
    by_cases hdone : st.assignments.length = (csvars I).length
    · rw [if_pos hdone] at h
      simp only [Option.some.injEq] at h
      rw [← h]
    · rw [if_neg hdone] at h
      exact tryValuesAux_fst_length I (backtrack I f) (fun st' r' h' => ih st' r' h')
        _ st _ r h

/-- If the cap loop returns a solution, some cap in the scanned range
produced it and every earlier scanned cap failed. -/
theorem solveGo_eq_some {Q : Type} [LinearOrderedRing Q] (I : Inst Q) :
    ∀ (left k : Nat) (r : List (List Nat)), solveGo I k left = some r →
      ∃ j, k ≤ j ∧ j < k + left ∧ attempt I j = some r ∧
        ∀ i, k ≤ i → i < j → attempt I i = none := by
  intro left
  induction left with
  | zero =>
    intro k r h
    simp [solveGo] at h
  | succ m ih =>
    intro k r h
    simp only [solveGo] at h
    rcases ha : attempt I k with _ | r'
    · rw [ha] at h
      obtain ⟨j, hj1, hj2, hj3, hj4⟩ := ih (k + 1) r h
      refine ⟨j, by omega, by omega, hj3, ?_⟩
      intro i hi1 hi2
      rcases Nat.eq_or_lt_of_le hi1 with heq | hlt
      · rw [← heq]
        exact ha
      · exact hj4 i hlt hi2
    · rw [ha] at h
      simp only [Option.some.injEq] at h
      exact ⟨k, le_refl k, by omega, by rw [ha, h], fun i h1 h2 => absurd h1 (by omega)⟩

/-- If every scanned cap fails, the cap loop reports failure. -/
theorem solveGo_eq_none {Q : Type} [LinearOrderedRing Q] (I : Inst Q) :
    ∀ (left k : Nat), (∀ j, k ≤ j → j < k + left → attempt I j = none) →
      solveGo I k left = none := by
  intro left
  induction left with
  | zero =>
    intro k _
    rfl
  | succ m ih =>
    intro k hall
    simp only [solveGo]
    rw [hall k (le_refl k) (by omega)]
    exact ih (k + 1) (fun j h1 h2 => hall j (by omega) (by omega))

/-- A successful attempt at cap `k` returns a routes table with exactly
`k` routes (the keys `0..k-1` of the reset routes dict). -/
theorem attempt_length {Q : Type} [LinearOrderedRing Q] (I : Inst Q) (k : Nat)
    (r : List (List Nat)) (h : attempt I k = some r) : r.length = k := by
  unfold attempt at h
  by_cases hac : (arc_consistency I k).1 = true
  · rw [if_pos hac] at h
    have := backtrack_fst_length I (bfuel I)
      ⟨[], (arc_consistency I k).2, List.replicate k []⟩ r h
    simpa using this
  · rw [if_neg hac] at h
    cases h

/-- A cap whose arc-consistency pass reports inconsistency is skipped:
the attempt fails without running the backtracking search. -/
theorem attempt_of_ac_false {Q : Type} [LinearOrderedRing Q] (I : Inst Q)
    (k : Nat) (h : (arc_consistency I k).1 = false) : attempt I k = none := by
  unfold attempt
  rw [if_neg (by simp [h])]

/-- C4: `solve` tries caps `k = 1, 2, ..., fleet size` in strictly
increasing order with a fresh state per attempt, skipping the search for
a cap whose arc-consistency pass reports inconsistency, and returns the
first solution found; if the returned solution has `k` routes, every
attempt with a smaller cap failed, and if no cap up to the fleet size
yields a solution it returns the no-solution result. -/
theorem c4_minimization_loop {Q : Type} [LinearOrderedRing Q] (I : Inst Q) :
    (∀ r, solve I = some r →
      ∃ k, 1 ≤ k ∧ k ≤ I.numVehicles ∧ attempt I k = some r ∧ r.length = k ∧
        ∀ j, 1 ≤ j → j < k → attempt I j = none) ∧
    ((∀ k, 1 ≤ k → k ≤ I.numVehicles → attempt I k = none) → solve I = none) ∧
    (∀ k, (arc_consistency I k).1 = false → attempt I k = none) := by
  refine ⟨?_, ?_, ?_⟩
  · intro r h
    unfold solve at h
    obtain ⟨j, h1, h2, h3, h4⟩ := solveGo_eq_some I I.numVehicles 1 r h
    exact ⟨j, h1, by omega, h3, attempt_length I j r h3, fun i hi1 hi2 => h4 i hi1 hi2⟩
  · intro hall
    unfold solve
    exact solveGo_eq_none I I.numVehicles 1 (fun j h1 h2 => hall j h1 (by omega))
  · exact fun k => attempt_of_ac_false I k

/-- Witness for C4: at `instF` the arc-consistency pass at cap 1 fails
(customer 2's demand 200 exceeds the capacity), so the attempt at cap 1
is skipped. -/
theorem c4_minimization_loop_witness :
    (arc_consistency instF 1).1 = false ∧ attempt instF 1 = none :=
  ⟨by decide, (c4_minimization_loop instF).2.2 1 (by decide)⟩

/-! ### Claims C2 and C3 -/

/-- C2 (amended): the backtracking search is sound but not exhaustive in
the sense the claim states — whenever `backtracking_search` at cap `k`
(with non-negative capacity) returns a routes table, that table is a
complete feasible assignment: every route respects capacity and time
windows, no customer is repeated, every non-depot customer is served,
and the table has exactly `k` routes.  The converse direction of the
claim is false: a complete feasible assignment may exist while the
search returns failure, because routes can only be built in the
MRV-driven assignment order — see `c2_counterexample`. -/
theorem c2_backtracking_search_sound {Q : Type} [LinearOrderedRing Q]
    (I : Inst Q) (k : Nat) (hcap : 0 ≤ I.capacity) (r : List (List Nat))
    (h : backtracking_search I k = some r) :
    feasibleSolution I r = true ∧ r.length = k := by
  unfold backtracking_search at h
  have hinv : StInv I (initState k) :=
    StInv_fresh I k hcap _ (fun n w hw => by simpa using hw)
  refine ⟨feasibleSolution_of_goodRoutes I r
    (backtrack_sound I (bfuel I) (initState k) r hinv h), ?_⟩
  have := backtrack_fst_length I (bfuel I) (initState k) r h
  simpa [initState] using this

/-- Counterexample for C2 as stated: in `instA` the assignment of both
customers to vehicle 0 with route `[2, 1]` passes the uniqueness,
capacity and time-window checks, yet `backtracking_search` at cap 1
returns failure — the MRV heuristic assigns customer 1 first, so the
route `[2, 1]` can never be built, and appending customer 2 after
customer 1 misses its due time. -/
theorem c2_counterexample :
    feasibleSolution instA [[2, 1]] = true ∧ backtracking_search instA 1 = none :=
  ⟨by decide, by decide⟩

/-- Witness for C2 (amended) at `instW`, cap 1: the returned table
`[[1]]` is feasible and has one route. -/
theorem c2_backtracking_search_sound_witness :
    feasibleSolution instW [[1]] = true ∧ ([[1]] : List (List Nat)).length = 1 :=
  ⟨(c2_backtracking_search_sound instW 1 (by decide) [[1]] (by decide)).1,
   (c2_backtracking_search_sound instW 1 (by decide) [[1]] (by decide)).2⟩

/-- C3: every solution returned by `solve` (with non-negative capacity,
per the §6 input contract) satisfies the Route invariant: each route's
cumulative demand is at most the vehicle capacity, each route passes the
§4.2 time-window simulation, and each non-depot customer index appears
in exactly one route across the whole solution. -/
theorem c3_solve_solution_invariants {Q : Type} [LinearOrderedRing Q]
    (I : Inst Q) (r : List (List Nat)) (hcap : 0 ≤ I.capacity)
    (h : solve I = some r) :
    (∀ route ∈ r, routeDemand I route ≤ I.capacity ∧
      validate_time_windows I route = true) ∧
    (∀ x ∈ csvars I, r.flatten.count x = 1) := by
  unfold solve at h
  obtain ⟨j, _, _, hat, _⟩ := solveGo_eq_some I I.numVehicles 1 r h
  unfold attempt at hat
  by_cases hac : (arc_consistency I j).1 = true
  · rw [if_pos hac] at hat
    have hinv : StInv I ⟨[], (arc_consistency I j).2, List.replicate j []⟩ :=
      StInv_fresh I j hcap _ (ac_snd_lt I j)
    have hgood := backtrack_sound I (bfuel I) _ r hinv hat
    obtain ⟨h1, h2, h3⟩ := hgood
    exact ⟨h1, fun x hx => List.count_eq_one_of_mem h2 (h3 x hx)⟩
  · rw [if_neg hac] at hat
    cases hat

/-- Witness for C3 at `instW`: `solve` returns `[[1]]`, whose single
route respects capacity and time windows and serves customer 1 exactly
once. -/
theorem c3_solve_solution_invariants_witness :
    (routeDemand instW [1] ≤ instW.capacity ∧
      validate_time_windows instW [1] = true) ∧
    ([[1]] : List (List Nat)).flatten.count 1 = 1 :=
  ⟨(c3_solve_solution_invariants instW [[1]] (by decide) (by decide)).1 [1] (by decide),
   (c3_solve_solution_invariants instW [[1]] (by decide) (by decide)).2 1 (by decide)⟩

/-! ### Claim C1 -/

/-- C1 (code bug): `backtracking_search instB 2` reaches the node with
state `stB` (customer 1 committed to vehicle 0, all domains `[0, 1]`);
there MRV selects variable 2 and the LCV order of its candidate values
is `[0, 1]`.  Value 0 commits and then fails forward checking, and the
undo restores the post-append snapshot: customer 2 is still in vehicle
0's route of the `undoState`, so the sibling value 1 is rejected by the
uniqueness check and the loop over `[0, 1]` fails — while the same loop
run on `[1]` alone from the same pre-commitment state succeeds with the
feasible solution `[[1, 4], [2, 3]]`.  The full search therefore
returns failure, contradicting the claim that after an undo the routes
table equals its pre-append state and the variable appears in no route. -/
theorem c1_undo_not_restored :
    select_unassigned_variable instB stB = 2 ∧
    pySorted (least_constraining_value instB stB) (stB.domains 2) = [0, 1] ∧
    2 ∈ (undoState stB 2 0 stB.domains).routes.getD 0 [] ∧
    (tryValuesAux instB (backtrack instB 3) stB 2 [0, 1]).1 = none ∧
    (tryValuesAux instB (backtrack instB 3) stB 2 [1]).1 = some [[1, 4], [2, 3]] ∧
    feasibleSolution instB [[1, 4], [2, 3]] = true ∧
    backtracking_search instB 2 = none := by
  refine ⟨by decide, by decide, by decide, by decide, by decide, by decide, by decide⟩

/-! ### Claim C8 -/

/-- The claim-side LCV count: the number of OTHER unassigned variables
whose current domains still contain `v`. -/
def otherCount {Q : Type} [LinearOrderedRing Q] (I : Inst Q) (st : SState)
    (x v : Nat) : Nat :=
  ((csvars I).filter
    (fun n => n != x &&
      (!assignedIn st.assignments n && decide (v ∈ st.domains n)))).length

/-- Ordered insertion (with the non-strict key comparator) of an element
that is value-smaller than every list element preserves the strict
lexicographic (key, value) pairwise order. -/
theorem pairwise_lex_orderedInsert (key : Nat → Nat) (a : Nat) :
    ∀ (l : List Nat), (∀ b ∈ l, a < b) →
      l.Pairwise (fun p q => key p < key q ∨ (key p = key q ∧ p < q)) →
      (List.orderedInsert (fun p q => key p ≤ key q) a l).Pairwise
        (fun p q => key p < key q ∨ (key p = key q ∧ p < q)) := by
  intro l
  induction l with
  | nil =>
    intro _ _
    simp [List.orderedInsert]
  | cons b t ih =>
    intro hval hpw
    obtain ⟨hb_t, hpw_t⟩ := List.pairwise_cons.mp hpw
    simp only [List.orderedInsert]
    by_cases hab : key a ≤ key b
    · rw [if_pos hab]
      apply List.pairwise_cons.mpr
      refine ⟨?_, hpw⟩
      intro c hc
      rcases List.mem_cons.mp hc with hcb | hct
      · rw [hcb]
        rcases lt_or_eq_of_le hab with h | h
        · exact Or.inl h
        · exact Or.inr ⟨h, hval b (List.mem_cons_self _ _)⟩
      · have hbc : key b ≤ key c := by
          rcases hb_t c hct with h | ⟨h, _⟩
          · exact le_of_lt h
          · exact le_of_eq h
        rcases lt_or_eq_of_le (le_trans hab hbc) with h | h
        · exact Or.inl h
        · exact Or.inr ⟨h, hval c (List.mem_cons_of_mem _ hct)⟩
    · rw [if_neg hab]
      apply List.pairwise_cons.mpr
      refine ⟨?_, ih (fun c hc => hval c (List.mem_cons_of_mem _ hc)) hpw_t⟩
      intro c hc
      rcases (List.mem_orderedInsert _).mp hc with hca | hct
      · rw [hca]
        exact Or.inl (not_le.mp hab)
      · exact hb_t c hct

/-- The stable sort of a strictly ascending list by a key is strictly
lexicographically sorted by (key, value). -/
theorem pairwise_lex_pySorted (key : Nat → Nat) :
    ∀ (l : List Nat), l.Pairwise (· < ·) →
      (pySorted key l).Pairwise
        (fun p q => key p < key q ∨ (key p = key q ∧ p < q)) := by
  intro l
  induction l with
  | nil =>
    intro _
    simp [pySorted, List.insertionSort]
  | cons a t ih =>
    intro hpw
    obtain ⟨ha, hpt⟩ := List.pairwise_cons.mp hpw
    show (List.orderedInsert _ a
      (List.insertionSort (fun p q => key p ≤ key q) t)).Pairwise _
    apply pairwise_lex_orderedInsert
    · intro b hb
      rw [(List.perm_insertionSort _ t).mem_iff] at hb
      exact ha b hb
    · exact ih hpt

/-- Counting a duplicate-free list with one marked member: the filtered
length is one more than the filtered length excluding the member. -/
theorem filter_length_succ_of_mem (p : Nat → Bool) :
    ∀ (l : List Nat), l.Nodup → ∀ a ∈ l, p a = true →
      (l.filter p).length = (l.filter (fun n => n != a && p n)).length + 1 := by
  intro l
  induction l with
  | nil =>
    intro _ a ha
    simp at ha
  | cons b t ih =>
    intro hnd a ha hpa
    obtain ⟨hb, hnt⟩ := List.nodup_cons.mp hnd
    rcases List.mem_cons.mp ha with hab | hat
    · rw [← hab] at hb ⊢
      rw [List.filter_cons_of_pos hpa, List.filter_cons_of_neg (by simp)]
      have hcongr : t.filter (fun n => n != a && p n) = t.filter p := by
        apply List.filter_congr
        intro n hn
        have hna : n ≠ a := fun h => hb (h ▸ hn)
        simp [hna]
      rw [hcongr]
      simp
    · have hba : b ≠ a := fun h => hb (h ▸ hat)
      by_cases hpb : p b = true
      · rw [List.filter_cons_of_pos hpb, List.filter_cons_of_pos (by simp [hba, hpb])]
        simp only [List.length_cons]
        rw [ih hnt a hat hpa]
      · rw [List.filter_cons_of_neg (by simp [hpb]),
          List.filter_cons_of_neg (by simp [hpb])]
        exact ih hnt a hat hpa

/-- The source's LCV count also counts the selected (unassigned)
variable itself, so on its own candidate values it equals the claim's
other-variables count plus one. -/
theorem lcv_eq_otherCount_succ {Q : Type} [LinearOrderedRing Q] (I : Inst Q)
    (st : SState) (x v : Nat) (hx : x ∈ csvars I)
    (hunasg : assignedIn st.assignments x = false) (hv : v ∈ st.domains x) :
    least_constraining_value I st v = otherCount I st x v + 1 := by
  unfold least_constraining_value otherCount
  exact filter_length_succ_of_mem _ (csvars I) (csvars_nodup I) x hx
    (by simp [hunasg, hv])

/-- C8: at a search node — the selected variable `x` unassigned, its
domain list strictly ascending (as holds throughout the source: domains
start as `list(range(k))` and are only ever filtered) — the candidate
values are tried in a permutation of the domain that is in ascending
order of the LCV count (the number of other unassigned variables whose
current domains still contain the value), ties broken by ascending value
order.  The source's count also includes `x` itself, a uniform shift of
one that leaves the order unchanged (`lcv_eq_otherCount_succ`). -/
theorem c8_lcv_value_order {Q : Type} [LinearOrderedRing Q] (I : Inst Q)
    (st : SState) (x : Nat) (hx : x ∈ csvars I)
    (hunasg : assignedIn st.assignments x = false)
    (hsorted : (st.domains x).Pairwise (· < ·)) :
    (pySorted (least_constraining_value I st) (st.domains x)).Perm (st.domains x) ∧
    (pySorted (least_constraining_value I st) (st.domains x)).Pairwise
      (fun a b => otherCount I st x a < otherCount I st x b ∨
        (otherCount I st x a = otherCount I st x b ∧ a < b)) := by
  refine ⟨List.perm_insertionSort _ _, ?_⟩
  have hkey := pairwise_lex_pySorted (least_constraining_value I st)
    (st.domains x) hsorted
  apply List.Pairwise.imp_of_mem ?_ hkey
  intro a b ha hb hR
  have ha' : a ∈ st.domains x := by
    rw [← (List.perm_insertionSort
      (fun p q => least_constraining_value I st p ≤ least_constraining_value I st q)
      (st.domains x)).mem_iff]
    exact ha
  have hb' : b ∈ st.domains x := by
    rw [← (List.perm_insertionSort
      (fun p q => least_constraining_value I st p ≤ least_constraining_value I st q)
      (st.domains x)).mem_iff]
    exact hb
  have hea := lcv_eq_otherCount_succ I st x a hx hunasg ha'
  have heb := lcv_eq_otherCount_succ I st x b hx hunasg hb'
  rcases hR with h | ⟨h, hab⟩
  · left
    omega
  · right
    exact ⟨by omega, hab⟩

/-- Witness for C8 at the node state `stB` of `instB` (variable 2,
domain `[0, 1]`). -/
theorem c8_lcv_value_order_witness :
    (pySorted (least_constraining_value instB stB) (stB.domains 2)).Perm
      (stB.domains 2) ∧
    (pySorted (least_constraining_value instB stB) (stB.domains 2)).Pairwise
      (fun a b => otherCount instB stB 2 a < otherCount instB stB 2 b ∨
        (otherCount instB stB 2 a = otherCount instB stB 2 b ∧ a < b)) :=
  c8_lcv_value_order instB stB 2 (by decide) (by decide) (by decide)

/-! ### Claim C9 -/

/-- C9: the distance matrix built at construction from the customers'
coordinates is symmetric and has a zero diagonal: for all location
indices `i` and `j`, `matrix[i][j] == matrix[j][i]` and
`matrix[i][i] == 0`. -/
theorem c9_distance_matrix_symmetric_zero_diagonal
    (locations : List (Rat × Rat)) (i j : Nat) :
    create_distance_matrix locations i j = create_distance_matrix locations j i ∧
    create_distance_matrix locations i i = 0 := by
  constructor
  · unfold create_distance_matrix euclidean_distance
    congr 1
    push_cast
    ring
  · unfold create_distance_matrix euclidean_distance
    simp

/-! ### Claim C6 -/

/-- `validateFrom` decides the §4.2 time-window simulation relation from
any previous stop and clock value. -/
theorem validateFrom_iff_TWSim {Q : Type} [LinearOrderedRing Q] (I : Inst Q) :
    ∀ (route : List Nat) (prev : Nat) (clock : Q),
      validateFrom I prev clock route = true ↔ TWSim I prev clock route := by
  intro route
  induction route with
  | nil =>
    intro prev clock
    simp only [validateFrom]
    exact iff_of_true (by trivial) (TWSim.nil prev clock)
  | cons c rest ih =>
    intro prev clock
    simp only [validateFrom]
    by_cases h : I.due c < max (clock + I.dist prev c) (I.ready c)
    · rw [if_pos h]
      constructor
      · intro hfalse
        cases hfalse
      · intro hsim
        cases hsim with
        | cons _ _ _ _ hdue _ => exact absurd hdue (not_le.mpr h)
    · rw [if_neg h, ih]
      constructor
      · intro hrest
        exact TWSim.cons prev clock c rest (not_lt.mp h) hrest
      · intro hsim
        cases hsim with
        | cons _ _ _ _ _ hrest => exact hrest

/-- C6: for every route, the time-window validator returns true iff the
§4.2 simulation never rejects (clock starts at 0, travel time added from
the previous stop or the depot, free waiting until `ready_time`,
rejection iff the possibly advanced clock strictly exceeds some
`due_time`, `service_time` added otherwise); the empty route is always
feasible. -/
theorem c6_time_window_validator {Q : Type} [LinearOrderedRing Q]
    (I : Inst Q) (route : List Nat) :
    (validate_time_windows I route = true ↔ TWSim I 0 0 route) ∧
    validate_time_windows I ([] : List Nat) = true :=
  ⟨validateFrom_iff_TWSim I route 0 0, rfl⟩

/-- Witness for C6: at the concrete route `[2, 1]` of `instA` the
validator's verdict transfers to the simulation relation, and the empty
route validates. -/
theorem c6_time_window_validator_witness :
    TWSim instA 0 0 [2, 1] ∧ validate_time_windows instA ([] : List Nat) = true :=
  ⟨(c6_time_window_validator instA [2, 1]).1.mp (by decide),
   (c6_time_window_validator instA [2, 1]).2⟩

/-! ### Claim C5 -/

/-- If the forward-checking loop fails, the domain store it returns is
exactly the entry snapshot `orig`. -/
theorem fcGo_false_restores {Q : Type} [LinearOrderedRing Q] (I : Inst Q)
    (routes : List (List Nat)) (asg : List (Nat × Nat)) (orig : Nat → List Nat) :
    ∀ (vars : List Nat) (d : Nat → List Nat),
      (fcGo I routes asg orig vars d).1 = false →
      (fcGo I routes asg orig vars d).2 = orig := by
  intro vars
  induction vars with
  | nil => intro d h; simp [fcGo] at h
  | cons n rest ih =>
    intro d h
    simp only [fcGo] at h ⊢
    by_cases ha : assignedIn asg n = true
    · rw [if_pos ha] at h ⊢
      exact ih _ h
    · rw [if_neg ha] at h ⊢
      by_cases he :
          ((d n).filter (fun v => is_consistent I routes n (routes.getD v []))).isEmpty = true
      · rw [if_pos he]
      · rw [if_neg he] at h ⊢
        exact ih _ h

/-- If the forward-checking loop succeeds, the domain of every
unassigned variable in the (duplicate-free) walked list is replaced by
the filtered subset of its previous domain, and every other entry is
unchanged. -/
theorem fcGo_true_spec {Q : Type} [LinearOrderedRing Q] (I : Inst Q)
    (routes : List (List Nat)) (asg : List (Nat × Nat)) (orig : Nat → List Nat) :
    ∀ (vars : List Nat) (d : Nat → List Nat), vars.Nodup →
      (fcGo I routes asg orig vars d).1 = true →
      ∀ n, (fcGo I routes asg orig vars d).2 n =
        if n ∈ vars ∧ assignedIn asg n = false then
          (d n).filter (fun v => is_consistent I routes n (routes.getD v []))
        else d n := by
  intro vars
  induction vars with
  | nil =>
    intro d _ _ n
    simp [fcGo]
  | cons m rest ih =>
    intro d hnd h n
    obtain ⟨hm, hrest⟩ := List.nodup_cons.mp hnd
    simp only [fcGo] at h ⊢
    by_cases ha : assignedIn asg m = true
    · rw [if_pos ha] at h ⊢
      rw [ih _ hrest h n]
      by_cases hn : n = m
      · subst hn
        simp [hm, ha]
      · simp [List.mem_cons, hn]
    · have ha' : assignedIn asg m = false := by
        cases hb : assignedIn asg m
        · rfl
        · exact absurd hb ha
      rw [if_neg ha] at h ⊢
      by_cases he :
          ((d m).filter (fun v => is_consistent I routes m (routes.getD v []))).isEmpty = true
      · rw [if_pos he] at h
        simp at h
      · rw [if_neg he] at h ⊢
        rw [ih _ hrest h n]
        by_cases hn : n = m
        · subst hn
          simp [hm, updD, ha']
        · simp [List.mem_cons, hn, updD]

/-- If the forward-checking loop fails, some unassigned variable of the
walked list has an empty recomputed domain (stated against the domain
store `d0` that agrees with the threaded store on the walked list). -/
theorem fcGo_false_exists {Q : Type} [LinearOrderedRing Q] (I : Inst Q)
    (routes : List (List Nat)) (asg : List (Nat × Nat)) (orig : Nat → List Nat)
    (d0 : Nat → List Nat) :
    ∀ (vars : List Nat) (d : Nat → List Nat), vars.Nodup →
      (∀ n ∈ vars, d n = d0 n) →
      (fcGo I routes asg orig vars d).1 = false →
      ∃ n ∈ vars, assignedIn asg n = false ∧
        (d0 n).filter (fun v => is_consistent I routes n (routes.getD v [])) = [] := by
  intro vars
  induction vars with
  | nil => intro d _ _ h; simp [fcGo] at h
  | cons m rest ih =>
    intro d hnd hagree h
    obtain ⟨hm, hrest⟩ := List.nodup_cons.mp hnd
    simp only [fcGo] at h
    by_cases ha : assignedIn asg m = true
    · rw [if_pos ha] at h
      obtain ⟨n, hn, hx⟩ := ih _ hrest (fun n hn => hagree n (List.mem_cons_of_mem m hn)) h
      exact ⟨n, List.mem_cons_of_mem m hn, hx⟩
    · rw [if_neg ha] at h
      by_cases he :
          ((d m).filter (fun v => is_consistent I routes m (routes.getD v []))).isEmpty = true
      · refine ⟨m, List.mem_cons_self m rest, Bool.not_eq_true _ ▸ ha, ?_⟩
        rw [← hagree m (List.mem_cons_self m rest)]
        exact List.isEmpty_iff.mp he
      · rw [if_neg he] at h
        have hagree' : ∀ n ∈ rest, updD d m
            ((d m).filter (fun v => is_consistent I routes m (routes.getD v []))) n = d0 n := by
          intro n hn
          have : n ≠ m := fun hnm => hm (hnm ▸ hn)
          simp [updD, this]
          exact hagree n (List.mem_cons_of_mem m hn)
        obtain ⟨n, hn, hx⟩ := ih _ hrest hagree' h
        exact ⟨n, List.mem_cons_of_mem m hn, hx⟩

/-- C5: forward checking after a tentative commitment either (a)
succeeds and replaces each still-unassigned variable's domain with the
subset of its previous candidate vehicles for which appending that
variable to the vehicle's current route passes `is_consistent` (leaving
all other entries unchanged), or (b) fails because some unassigned
variable's recomputed domain is empty, in which case the whole domain
store equals its pre-call state (restored from the snapshot). -/
theorem c5_forward_checking {Q : Type} [LinearOrderedRing Q] (I : Inst Q)
    (st : SState) :
    ((forward_checking I st).1 = true →
      ∀ n, (forward_checking I st).2 n =
        if n ∈ csvars I ∧ assignedIn st.assignments n = false then
          (st.domains n).filter
            (fun v => is_consistent I st.routes n (st.routes.getD v []))
        else st.domains n) ∧
    ((forward_checking I st).1 = false →
      (∀ n, (forward_checking I st).2 n = st.domains n) ∧
      ∃ n ∈ csvars I, assignedIn st.assignments n = false ∧
        (st.domains n).filter
          (fun v => is_consistent I st.routes n (st.routes.getD v [])) = []) := by
  constructor
  · intro h n
    exact fcGo_true_spec I st.routes st.assignments st.domains (csvars I) st.domains
      (csvars_nodup I) h n
  · intro h
    refine ⟨?_, ?_⟩
    · intro n
      show (fcGo I st.routes st.assignments st.domains (csvars I) st.domains).2 n =
        st.domains n
      rw [fcGo_false_restores I st.routes st.assignments st.domains (csvars I)
        st.domains h]
    · exact fcGo_false_exists I st.routes st.assignments st.domains st.domains
        (csvars I) st.domains (csvars_nodup I) (fun _ _ => rfl) h

/-- The forward-checking failure state of `instA` after committing
customer 1 to vehicle 0 at cap 1: customer 2's recomputed domain is
empty (`[1, 2]` misses customer 2's due time). -/
def stF : SState := ⟨[(1, 0)], fun _ => [0], [[1]]⟩

/-- Witness for C5: at the failing state `stF` of `instA`, forward
checking fails and customer 2's domain is restored unchanged. -/
theorem c5_forward_checking_witness :
    (forward_checking instA stF).1 = false ∧
      (forward_checking instA stF).2 2 = stF.domains 2 :=
  ⟨by decide, ((c5_forward_checking instA stF).2 (by decide)).1 2⟩

/-! ### Claim C7 -/

/-- Every entry of the all-empty routes table is `[]` (also out of
range, where `getD` falls back to the default). -/
theorem getD_replicate_nil (k v : Nat) :
    (List.replicate k ([] : List Nat)).getD v [] = [] := by
  rcases Nat.lt_or_ge v k with hv | hv
  · rw [List.getD_eq_getElem _ _ (by simpa using hv)]
    simp
  · rw [List.getD_eq_default]
    simpa using hv

/-- On the all-empty routes table, `is_consistent x value []` is the
single-customer feasibility check of the spec: demand within capacity
and the one-stop route within its time window. -/
theorem is_consistent_empty_routes {Q : Type} [LinearOrderedRing Q]
    (I : Inst Q) (k x : Nat) :
    is_consistent I (List.replicate k []) x [] = singleCustomerFeasible I x := by
  unfold is_consistent singleCustomerFeasible
  have huniq : ¬((List.replicate k ([] : List Nat)).any (fun r => decide (x ∈ r)) = true) := by
    intro h
    rcases List.any_eq_true.mp h with ⟨r, hr, hx⟩
    rw [List.eq_of_mem_replicate hr] at hx
    simp at hx
  rw [if_neg huniq]
  simp only [routeDemand, List.map_nil, List.sum_nil, zero_add, List.nil_append]
  by_cases hc : I.capacity < I.demand x
  · rw [if_pos hc]
    have hd : decide (I.demand x ≤ I.capacity) = false := by
      simp [not_le.mpr hc]
    rw [hd, Bool.false_and]
  · rw [if_neg hc]
    have hd : decide (I.demand x ≤ I.capacity) = true := by
      simp [not_lt.mp hc]
    rw [hd, Bool.true_and]

/-- On the all-empty routes table the revise step keeps everything when
the partner's domain is non-empty and `x` is feasible on its own, and
otherwise removes every value: the shadowed generator variable makes the
removal test independent of the value being tested. -/
theorem revise_replicate {Q : Type} [LinearOrderedRing Q] (I : Inst Q)
    (k x : Nat) (dx dy : List Nat) :
    revise I (List.replicate k []) x dx dy =
      if dy ≠ [] ∧ is_consistent I (List.replicate k []) x [] = true then dx
      else [] := by
  unfold revise
  have hg : ∀ value : Nat,
      is_consistent I (List.replicate k []) x
          ((List.replicate k ([] : List Nat)).getD value []) =
        is_consistent I (List.replicate k []) x [] := by
    intro value
    rw [getD_replicate_nil]
  by_cases hdy : dy = []
  · subst hdy
    simp
  · cases hc : is_consistent I (List.replicate k []) x []
    · rw [if_neg (by simp [hc])]
      apply List.filter_eq_nil_iff.mpr
      intro a _
      intro hcontra
      rcases List.any_eq_true.mp hcontra with ⟨b, hb, hcb⟩
      rw [hg b, hc] at hcb
      exact Bool.false_ne_true hcb
    · rw [if_pos ⟨hdy, rfl⟩]
      apply List.filter_eq_self.mpr
      intro a _
      apply List.any_eq_true.mpr
      obtain ⟨b, hb⟩ := List.exists_mem_of_ne_nil dy hdy
      exact ⟨b, hb, by rw [hg b]; exact hc⟩

/-- The arc-consistency worklist loop returns immediately on an empty
queue. -/
theorem acLoop_nil_queue {Q : Type} [LinearOrderedRing Q] (I : Inst Q)
    (routes : List (List Nat)) (fuel : Nat) (d : Nat → List Nat) :
    acLoop I routes fuel [] d = (true, d) := by
  cases fuel <;> rfl

/-- Run from `solve`'s initial state (all routes empty, every domain
`range k` with `k ≥ 1`), the worklist loop returns success with the
domain store untouched whenever every queued pair has a feasible-alone
first component: no revise step ever changes a domain. -/
theorem acLoop_init_true {Q : Type} [LinearOrderedRing Q] (I : Inst Q)
    (k : Nat) (hk : 1 ≤ k) :
    ∀ (q : List (Nat × Nat)) (fuel : Nat), q.length ≤ fuel →
      (∀ p ∈ q, is_consistent I (List.replicate k []) p.1 [] = true) →
      acLoop I (List.replicate k []) fuel q (fun _ => List.range k) =
        (true, fun _ => List.range k) := by
  intro q
  induction q with
  | nil =>
    intro fuel _ _
    exact acLoop_nil_queue I _ fuel _
  | cons p rest ih =>
    intro fuel hfuel hall
    obtain ⟨f, rfl⟩ : ∃ f, fuel = f + 1 := by
      rcases fuel with _ | f
      · simp at hfuel
      · exact ⟨f, rfl⟩
    obtain ⟨x, y⟩ := p
    have hx : is_consistent I (List.replicate k []) x [] = true :=
      hall (x, y) (List.mem_cons_self _ _)
    have hrange : List.range k ≠ [] := by
      intro hcontra
      rw [List.range_eq_nil] at hcontra
      omega
    have hrev : revise I (List.replicate k []) x (List.range k) (List.range k) =
        List.range k := by
      rw [revise_replicate]
      exact if_pos ⟨hrange, hx⟩
    simp only [acLoop, hrev, if_pos rfl]
    exact ih f (by simpa using Nat.le_of_succ_le_succ hfuel)
      (fun p hp => hall p (List.mem_cons_of_mem _ hp))

/-- Run from `solve`'s initial state with `k ≥ 1`, the worklist loop
reports inconsistency as soon as some queued pair has an
infeasible-alone first component: its revise step empties that domain. -/
theorem acLoop_init_false {Q : Type} [LinearOrderedRing Q] (I : Inst Q)
    (k : Nat) (hk : 1 ≤ k) :
    ∀ (q : List (Nat × Nat)) (fuel : Nat), q.length ≤ fuel →
      (∃ p ∈ q, ¬is_consistent I (List.replicate k []) p.1 [] = true) →
      (acLoop I (List.replicate k []) fuel q (fun _ => List.range k)).1 = false := by
  intro q
  induction q with
  | nil =>
    intro fuel _ hex
    simp at hex
  | cons p rest ih =>
    intro fuel hfuel hex
    obtain ⟨f, rfl⟩ : ∃ f, fuel = f + 1 := by
      rcases fuel with _ | f
      · simp at hfuel
      · exact ⟨f, rfl⟩
    obtain ⟨x, y⟩ := p
    have hrange : List.range k ≠ [] := by
      intro hcontra
      rw [List.range_eq_nil] at hcontra
      omega
    by_cases hx : is_consistent I (List.replicate k []) x [] = true
    · have hrev : revise I (List.replicate k []) x (List.range k) (List.range k) =
          List.range k := by
        rw [revise_replicate]
        exact if_pos ⟨hrange, hx⟩
      simp only [acLoop, hrev, if_pos rfl]
      apply ih f (by simpa using Nat.le_of_succ_le_succ hfuel)
      rcases hex with ⟨p', hp', hinf⟩
      rcases List.mem_cons.mp hp' with h0 | h0
      · rw [h0] at hinf
        exact absurd hx hinf
      · exact ⟨p', h0, hinf⟩
    · have hrev : revise I (List.replicate k []) x (List.range k) (List.range k) =
          [] := by
        rw [revise_replicate]
        exact if_neg (by simp [hx])
      simp only [acLoop, hrev]
      rw [if_neg (Ne.symm hrange)]
      simp

/-- Characterization of the initial worklist membership. -/
theorem mem_initQueue {Q : Type} [LinearOrderedRing Q] (I : Inst Q)
    (x y : Nat) :
    (x, y) ∈ initQueue I ↔ x ∈ csvars I ∧ y ∈ csvars I ∧ y ≠ x := by
  simp only [initQueue, List.mem_flatMap, List.mem_map, List.mem_filter]
  constructor
  · rintro ⟨a, ha, b, ⟨hb, hba⟩, heq⟩
    obtain ⟨rfl, rfl⟩ := Prod.mk.injEq .. ▸ And.intro (congrArg Prod.fst heq) (congrArg Prod.snd heq)
    exact ⟨ha, hb, by simpa using hba⟩
  · rintro ⟨hx, hy, hyx⟩
    exact ⟨x, hx, y, ⟨hy, by simpa using hyx⟩, rfl⟩

/-- When the instance has at most one variable the initial worklist is
empty. -/
theorem initQueue_eq_nil_of_le_one {Q : Type} [LinearOrderedRing Q]
    (I : Inst Q) (h : (csvars I).length ≤ 1) : initQueue I = [] := by
  apply List.eq_nil_iff_forall_not_mem.mpr
  rintro ⟨x, y⟩ hmem
  rcases (mem_initQueue I x y).mp hmem with ⟨hx, hy, hyx⟩
  apply hyx
  rcases hl : csvars I with _ | ⟨a, rest⟩
  · rw [hl] at hx
    simp at hx
  · rcases rest with _ | ⟨b, rest'⟩
    · rw [hl] at hx hy
      simp at hx hy
      rw [hx, hy]
    · rw [hl] at h
      simp at h

/-- When the instance has at least two variables, every variable has a
distinct partner variable. -/
theorem exists_partner {Q : Type} [LinearOrderedRing Q] (I : Inst Q)
    (h : 2 ≤ (csvars I).length) (x : Nat) (_hx : x ∈ csvars I) :
    ∃ y ∈ csvars I, y ≠ x := by
  have hlen : (csvars I).length = I.numCustomers - 1 := by
    simp [csvars]
  have h1 : 1 ∈ csvars I := by
    simp only [csvars, List.mem_range'_1]
    omega
  have h2 : 2 ∈ csvars I := by
    simp only [csvars, List.mem_range'_1]
    omega
  by_cases hx1 : x = 1
  · exact ⟨2, h2, by omega⟩
  · exact ⟨1, h1, by omega⟩

/-- C7 (amended): for every instance with vehicle cap `k ≥ 1`, the
arc-consistency pass either leaves every domain exactly `range k` and
returns true, or returns false; and it returns false iff the instance
has at least two variables and some variable is infeasible on its own
(demand over capacity, or time window unreachable directly from the
depot).  [The claim as stated omits the two-variable condition: with a
single variable the worklist of ordered pairs of distinct variables is
empty, so the pass returns true without testing anything — see
`c7_counterexample`.] -/
theorem c7_arc_consistency_characterization {Q : Type} [LinearOrderedRing Q]
    (I : Inst Q) (k : Nat) (hk : 1 ≤ k) :
    ((arc_consistency I k).1 = true ↔
      ((csvars I).length ≤ 1 ∨ ∀ x ∈ csvars I, singleCustomerFeasible I x = true)) ∧
    ((arc_consistency I k).1 = true → ∀ n, (arc_consistency I k).2 n = List.range k) := by
  unfold arc_consistency
  by_cases hlen : (csvars I).length ≤ 1
  · rw [initQueue_eq_nil_of_le_one I hlen, acLoop_nil_queue]
    exact ⟨iff_of_true rfl (Or.inl hlen), fun _ _ => rfl⟩
  · by_cases hall : ∀ x ∈ csvars I, singleCustomerFeasible I x = true
    · have hq : ∀ p ∈ initQueue I, is_consistent I (List.replicate k []) p.1 [] = true := by
        rintro ⟨x, y⟩ hp
        rcases (mem_initQueue I x y).mp hp with ⟨hx, _, _⟩
        rw [is_consistent_empty_routes]
        exact hall x hx
      rw [acLoop_init_true I k hk (initQueue I) (acFuel I k)
        (by unfold acFuel; rw [Nat.add_assoc]; exact Nat.le_add_right _ _) hq]
      exact ⟨iff_of_true rfl (Or.inr hall), fun _ _ => rfl⟩
    · push_neg at hall
      obtain ⟨x, hx, hinf⟩ := hall
      obtain ⟨y, hy, hyx⟩ := exists_partner I (by omega) x hx
      have hmem : (x, y) ∈ initQueue I := (mem_initQueue I x y).mpr ⟨hx, hy, hyx⟩
      have hfalse : (acLoop I (List.replicate k []) (acFuel I k) (initQueue I)
          (fun _ => List.range k)).1 = false := by
        apply acLoop_init_false I k hk (initQueue I) (acFuel I k)
        · unfold acFuel
          rw [Nat.add_assoc]
          exact Nat.le_add_right _ _
        · refine ⟨(x, y), hmem, ?_⟩
          rw [is_consistent_empty_routes]
          simpa using hinf
      refine ⟨?_, ?_⟩
      · rw [hfalse]
        simp only [Bool.false_eq_true, false_iff]
        push_neg
        refine ⟨by omega, ⟨x, hx, ?_⟩⟩
        simpa using hinf
      · intro htrue
        rw [hfalse] at htrue
        cases htrue

/-- Counterexample for C7 as stated: in `instC7` the single customer 1
is infeasible on its own (demand 200 exceeds capacity 100), yet the
arc-consistency pass at cap 1 returns true — with one variable the
worklist of ordered pairs of distinct variables is empty, so nothing is
ever tested. -/
theorem c7_counterexample :
    1 ∈ csvars instC7 ∧ singleCustomerFeasible instC7 1 = false ∧
      (arc_consistency instC7 1).1 = true := by
  refine ⟨by decide, by decide, by decide⟩

/-- Witness for C7 (amended) at `instW`, cap 1: the pass returns true
and leaves customer 1's domain at `range 1`. -/
theorem c7_arc_consistency_characterization_witness :
    (arc_consistency instW 1).1 = true ∧ (arc_consistency instW 1).2 1 = List.range 1 := by
  have h := c7_arc_consistency_characterization instW 1 (le_refl 1)
  have ht : (arc_consistency instW 1).1 = true := h.1.mpr (by decide)
  exact ⟨ht, h.2 ht 1⟩

/-! ### Claim C10 -/

/-- C10: for an instance containing only the depot and fleet size at
least 1, `solve` succeeds at vehicle cap 1 with every route empty, and
`format_solution` then reports zero vehicles used and total distance 0. -/
theorem c10_depot_only {Q : Type} [LinearOrderedRing Q] (I : Inst Q)
    (h1 : I.numCustomers = 1) (hk : 1 ≤ I.numVehicles) :
    solve I = some [[]] ∧ format_solution_counts I [[]] = (0, (0 : Q)) := by
  have hv : csvars I = [] := by simp [csvars, h1]
  have hq : initQueue I = [] := by simp [initQueue, hv]
  have hac : arc_consistency I 1 = (true, fun _ => List.range 1) := by
    unfold arc_consistency
    rw [hq, acLoop_nil_queue]
  have hbf : bfuel I = 1 := by simp [bfuel, hv]
  have hbt : backtrack I 1 ⟨[], fun _ => List.range 1, List.replicate 1 []⟩ =
      (some [[]], fun _ => List.range 1) := by
    simp [backtrack, hv]
  have hat : attempt I 1 = some [[]] := by
    unfold attempt
    rw [hac, hbf]
    simpa using congrArg Prod.fst hbt
  obtain ⟨m, hm⟩ : ∃ m, I.numVehicles = m + 1 := ⟨I.numVehicles - 1, by omega⟩
  refine ⟨?_, ?_⟩
  · unfold solve
    rw [hm]
    simp [solveGo, hat]
  · simp [format_solution_counts, calculate_total_distance, route_distance]

/-- Witness for C10 at the depot-only instance `instD`. -/
theorem c10_depot_only_witness :
    instD.numCustomers = 1 ∧ 1 ≤ instD.numVehicles ∧ solve instD = some [[]] ∧
      format_solution_counts instD [[]] = (0, (0 : Int)) :=
  ⟨rfl, by decide, (c10_depot_only instD rfl (by decide)).1,
    (c10_depot_only instD rfl (by decide)).2⟩

end VRPTW3
